import Mathlib

/-!
Verification of the contract state range engine (`vm_database.rs`) and the
p2p network orchestrator (`orchestrator.rs`) of this repository.

Machine integers are modelled as `Nat` with explicit bounds: a 256-bit key is
a `Nat` below `2 ^ 256`. The column store behind `VmDatabase` is external to
the two source files; following the interface contract in the design document
it is modelled as an association list sorted in ascending big-endian key
order, which is exactly the order its forward iterator yields.
-/

namespace FuelCore

/-- `2 ^ 256`: the number of distinct 32-byte storage keys. A `U256` value is
a `Nat` strictly below `SIZE`. -/
def SIZE : Nat := 2 ^ 256

/-- Errors of the storage layer (`fuel_core_interfaces::db::Error`): the
variants reachable from the embedded code. -/
inductive DbError where
  | other (msg : String)
  | notFound (entity : String)
deriving DecidableEq

/-- The error produced by `IncreaseStorageKey::increase` and by the insert
preflight check. -/
def keyspaceOverflow : DbError := .other "range op exceeded available keyspace"

/-- `IncreaseStorageKey::increase` for `U256`: `checked_add(1)`, failing when
the argument is `U256::MAX = SIZE - 1`. -/
def increase (k : Nat) : Except DbError Nat :=
  if k + 1 < SIZE then .ok (k + 1) else .error keyspaceOverflow

/-- The `ContractsState` column: physical keys are `contract_id ‖ key`
(64 bytes), modelled as a pair of `Nat`s, each below `SIZE`; values are
32-byte words modelled as `Nat`. The list is kept sorted in ascending
lexicographic key order, matching the store's physical scan order. -/
abbrev ContractsState := List ((Nat × Nat) × Nat)

/-- Strict lexicographic order on physical keys `contract_id ‖ key`. -/
def keyLt (a b : Nat × Nat) : Prop :=
  a.1 < b.1 ∨ (a.1 = b.1 ∧ a.2 < b.2)

instance (a b : Nat × Nat) : Decidable (keyLt a b) := by
  unfold keyLt; infer_instance

/-- Well-formedness of a modelled column: entries sorted strictly ascending
by physical key (hence keys are distinct). -/
def StoreWf (s : ContractsState) : Prop :=
  s.Pairwise fun a b => keyLt a.1 b.1

/-- Modelled from the spec: `Database` point lookup (`StorageInspect::get`)
on the `ContractsState` column. The store itself is an external collaborator
of `vm_database.rs`, specified only by its interface contract. -/
def store_get : ContractsState → (Nat × Nat) → Option Nat
  | [], _ => none
  | (k, v) :: rest, q => if q = k then some v else store_get rest q

/-- Modelled from the spec: `Database::insert` on the `ContractsState`
column: writes `v` at physical key `k`, keeps the sort order, and returns the
prior value at `k` (if any). -/
def store_insert : ContractsState → (Nat × Nat) → Nat → Option Nat × ContractsState
  | [], k, v => (none, [(k, v)])
  | (k2, v2) :: rest, k, v =>
    if keyLt k k2 then (none, (k, v) :: (k2, v2) :: rest)
    else if k = k2 then (some v2, (k, v) :: rest)
    else
      let (p, s) := store_insert rest k v
      (p, (k2, v2) :: s)

/-- Modelled from the spec: `Database::remove` on the `ContractsState`
column: deletes the entry at physical key `k` and returns the prior value at
`k` (if any). -/
def store_remove : ContractsState → (Nat × Nat) → Option Nat × ContractsState
  | [], _ => (none, [])
  | (k2, v2) :: rest, k =>
    if k = k2 then (some v2, rest)
    else
      let (p, s) := store_remove rest k
      (p, (k2, v2) :: s)

/-- Modelled from the spec: `Database::iter_all` over `ContractsState` with
scan restricted to contract `cid`, seeking forward from physical key
`cid ‖ start`: the ascending entries of the contract whose slot key is at
least `start`, projected to `(slot key, value)`. -/
def iter_all (store : ContractsState) (cid start : Nat) : List (Nat × Nat) :=
  (store.filter fun e => decide (e.1.1 = cid ∧ start ≤ e.1.2)).map fun e => (e.1.2, e.2)

/-- Lookup in the projected iterator output (association list on slot keys). -/
def iterGet : List (Nat × Nat) → Nat → Option Nat
  | [], _ => none
  | (k, v) :: rest, q => if q = k then some v else iterGet rest q

/-- The inner loop of `merkle_contract_state_range`: with the iterator
holding entry `(a, v)`, emit elements while `expected_key ≤ a` and the
buffer is not full, advancing `expected_key` by `increase` after each push.
Returns the new cursor, the remaining capacity, and the buffer. -/
def rangeInner (a v expected n : Nat) (acc : List (Option Nat)) :
    Except DbError (Nat × Nat × List (Option Nat)) :=
  match n with
  | 0 => .ok (expected, 0, acc)
  | r + 1 =>
    if expected ≤ a then
      let acc2 := acc ++ [if expected = a then some v else none]
      match increase expected with
      | .error e => .error e
      | .ok e2 => rangeInner a v e2 r acc2
    else
      .ok (expected, r + 1, acc)

/-- The outer loop of `merkle_contract_state_range`: while the buffer is not
full, pull the next iterator entry (stopping at iterator exhaustion) and run
the inner loop on it. -/
def rangeOuter (iter : List (Nat × Nat)) (expected n : Nat) (acc : List (Option Nat)) :
    Except DbError (Nat × Nat × List (Option Nat)) :=
  match n, iter with
  | 0, _ => .ok (expected, 0, acc)
  | r + 1, [] => .ok (expected, r + 1, acc)
  | r + 1, (a, v) :: rest =>
    match rangeInner a v expected (r + 1) acc with
    | .error e => .error e
    | .ok (e2, r2, acc2) => rangeOuter rest e2 r2 acc2

/-- The trailing loop of `merkle_contract_state_range`: pad the buffer with
`none` up to the requested length, advancing the cursor after each pad. -/
def rangePad (expected n : Nat) (acc : List (Option Nat)) :
    Except DbError (List (Option Nat)) :=
  match n with
  | 0 => .ok acc
  | r + 1 =>
    let acc2 := acc ++ [none]
    match increase expected with
    | .error e => .error e
    | .ok e2 => rangePad e2 r acc2

/-- Glue between the two loops of `merkle_contract_state_range`. -/
def rangeFinish : Except DbError (Nat × Nat × List (Option Nat)) →
    Except DbError (List (Option Nat))
  | .error e => .error e
  | .ok (e2, r2, acc) => rangePad e2 r2 acc

/-- `InterpreterStorage::merkle_contract_state_range`: read `n` consecutive
slots of contract `cid` starting at slot `start`; `none` marks an
uninitialized slot. -/
def merkle_contract_state_range (store : ContractsState) (cid start n : Nat) :
    Except DbError (List (Option Nat)) :=
  rangeFinish (rangeOuter (iter_all store cid start) start n [])

/-- The write loop of `merkle_contract_state_insert_range`: insert the values
at consecutive keys, OR-ing `found_unset` with "prior was absent", advancing
the cursor by `increase` after each write. On a cursor overflow the writes
already performed stay committed. -/
def insertLoop : ContractsState → Nat → Nat → List Nat → Bool →
    Except DbError Bool × ContractsState
  | s, _, _, [], fu => (.ok fu, s)
  | s, cid, cur, v :: rest, fu =>
    let (prior, s2) := store_insert s (cid, cur) v
    match increase cur with
    | .error e => (.error e, s2)
    | .ok c2 => insertLoop s2 cid c2 rest (fu || prior.isNone)

/-- `InterpreterStorage::merkle_contract_state_insert_range`: preflight
`start + |values|` with `checked_add` (failing when the sum exceeds
`U256::MAX = SIZE - 1`), then write all values; returns `some ()`
(`AllOverwritten`) when every written slot previously held a value, else
`none` (`SomeNew`). The second component is the store after the call. -/
def merkle_contract_state_insert_range (store : ContractsState) (cid start : Nat)
    (values : List Nat) : Except DbError (Option Unit) × ContractsState :=
  if start + values.length < SIZE then
    match insertLoop store cid start values false with
    | (.ok fu, s2) => (.ok (if fu then none else some ()), s2)
    | (.error e, s2) => (.error e, s2)
  else
    (.error keyspaceOverflow, store)

/-- The delete loop of `merkle_contract_state_remove_range`: delete `n`
consecutive keys, OR-ing `found_unset` with "prior was absent", advancing the
cursor by `increase` after each delete. On a cursor overflow the deletes
already performed stay committed. -/
def removeLoop : ContractsState → Nat → Nat → Nat → Bool →
    Except DbError Bool × ContractsState
  | s, _, _, 0, fu => (.ok fu, s)
  | s, cid, cur, m + 1, fu =>
    let (prior, s2) := store_remove s (cid, cur)
    match increase cur with
    | .error e => (.error e, s2)
    | .ok c2 => removeLoop s2 cid c2 m (fu || prior.isNone)

/-- `InterpreterStorage::merkle_contract_state_remove_range`: delete `n`
consecutive slots (no preflight); returns `some ()` (`AllRemoved`) when every
deleted slot previously held a value, else `none` (`SomeAbsent`). The second
component is the store after the call. -/
def merkle_contract_state_remove_range (store : ContractsState) (cid start n : Nat) :
    Except DbError (Option Unit) × ContractsState :=
  match removeLoop store cid start n false with
  | (.ok fu, s2) => (.ok (if fu then none else some ()), s2)
  | (.error e, s2) => (.error e, s2)

/-- `InterpreterStorage::block_hash`: heights at or above the current block
height, and height `0`, give the all-zero hash (modelled as `0`); otherwise
the store's recorded block id is returned, failing with `NotFound` when it is
missing. The block-id accessor `get_block_id` is external to the source file
and is modelled from the spec as a partial map on heights. -/
def block_hash (current_block_height : Nat) (get_block_id : Nat → Option Nat)
    (height : Nat) : Except DbError Nat :=
  if current_block_height ≤ height ∨ height = 0 then .ok 0
  else
    match get_block_id height with
    | some id => .ok id
    | none => .error (.notFound "BlockId")

/-! ### P2P orchestrator: envelopes, report handling, service lifecycle -/

/-- Modelled from the spec: the byte encoding of a libp2p `PeerId` (external
to this repository) is a multihash: a hash-code byte, a digest-length byte
and the digest, the length byte matching the digest length. Bytes are
modelled as `Nat`s. -/
def validPeerIdBytes : List Nat → Bool
  | _ :: len :: digest => digest.length == len
  | _ => false

/-- Modelled from the spec: a libp2p `PeerId` carries a valid multihash byte
string. -/
structure PeerId where
  multihash : List Nat
  valid : validPeerIdBytes multihash = true

/-- `PeerId::to_bytes`: the multihash bytes of the peer id. -/
def PeerId.to_bytes (p : PeerId) : List Nat := p.multihash

/-- Modelled from the spec: the `Vec<u8> → PeerId` conversion used by
`try_into()` in the report arm — succeeds exactly on valid multihash
encodings. -/
def PeerId.tryFrom (bytes : List Nat) : Option PeerId :=
  if h : validPeerIdBytes bytes = true then some ⟨bytes, h⟩ else none

/-- A sample valid peer id (multihash `[code 0, length 1, digest 5]`). -/
def samplePeerId : PeerId := ⟨[0, 1, 5], rfl⟩

/-- `GossipData<T>` from `orchestrator.rs`: optional payload, originating
peer id and gossip message id (a `MessageId` is a byte vector, modelled as
`List Nat`). -/
structure GossipData (T : Type) where
  data : Option T
  peer_id : PeerId
  message_id : List Nat

/-- `GossipData::new`: wraps the payload as `Some(value)`. -/
def GossipData.new {T : Type} (value : T) (peer_id : PeerId)
    (message_id : List Nat) : GossipData T :=
  { data := some value, peer_id := peer_id, message_id := message_id }

/-- `NetworkData::take_data` (`self.data.take()`): returns the current
payload and the envelope with the payload replaced by `None`. -/
def GossipData.take_data {T : Type} (g : GossipData T) : Option T × GossipData T :=
  (g.data, { g with data := none })

/-- `NetworkData::message_id` (`self.message_id.0.clone()`). -/
def GossipData.messageIdBytes {T : Type} (g : GossipData T) : List Nat :=
  g.message_id

/-- `NetworkData::peer_id` (`self.peer_id.to_bytes()`). -/
def GossipData.peerIdBytes {T : Type} (g : GossipData T) : List Nat :=
  g.peer_id.to_bytes

/-- `GossipsubMessageAcceptance` from `fuel_core_interfaces::p2p`. -/
inductive GossipsubMessageAcceptance where
  | accept
  | reject
  | ignore
deriving DecidableEq

/-- `libp2p::gossipsub::MessageAcceptance`. -/
inductive MessageAcceptance where
  | accept
  | reject
  | ignore
deriving DecidableEq

/-- The verdict translation in the `GossipsubMessageReport` arm of
`NetworkOrchestrator::run`. -/
def translateAcceptance : GossipsubMessageAcceptance → MessageAcceptance
  | .accept => .accept
  | .reject => .reject
  | .ignore => .ignore

/-- The `P2pRequestEvent::GossipsubMessageReport` arm of
`NetworkOrchestrator::run`: derives the message id from the envelope's
`message_id()` bytes and the peer id from `message.peer_id().try_into()`
followed by `unwrap()` (the `unwrap` panic on unparsable bytes is modelled
as `none`), translates the verdict, and passes the triple to
`report_message_validation_result`. -/
def handleGossipsubMessageReport (peerBytes msgIdBytes : List Nat)
    (acceptance : GossipsubMessageAcceptance) :
    Option (List Nat × PeerId × MessageAcceptance) :=
  match PeerId.tryFrom peerBytes with
  | none => none
  | some pid => some (msgIdBytes, pid, translateAcceptance acceptance)

/-- Modelled from the spec: the two slots of `Service`, with the tokio
mutexes and the `JoinHandle` of the original replaced by their contents; the
parked orchestrator (`network_orchestrator`) and the running-task handle
(`join`) are opaque tokens. -/
structure ServiceState where
  network_orchestrator : Option Nat
  join : Option Nat
deriving DecidableEq

/-- Lifecycle errors raised by `Service::start`. -/
inductive ServiceError where
  | alreadyStarted
  | startingWhileStopping
deriving DecidableEq

/-- `Service::start`: fails with `AlreadyStarted` when a task handle is
present; otherwise takes the parked orchestrator — failing with
`StartingWhileStopping` when that slot is empty — spawns `run()` on it and
stores the handle of the spawned task. -/
def Service.start (s : ServiceState) : Except ServiceError ServiceState :=
  match s.join with
  | none =>
    match s.network_orchestrator with
    | some pno => .ok { network_orchestrator := none, join := some pno }
    | none => .error .startingWhileStopping
  | some _ => .error .alreadyStarted

/-- Result of `Service::stop`: the detached re-parking task holding the
taken join handle (if any), whether `P2pRequestEvent::Stop` was sent, and
the service state right after the call. -/
structure StopOutcome where
  task : Option Nat
  sentStop : Bool
  state : ServiceState
deriving DecidableEq

/-- `Service::stop`: takes the join handle; when one is present, sends
`Stop` and returns a detached task that awaits the handle; when absent,
returns `None` without sending anything. -/
def Service.stop (s : ServiceState) : StopOutcome :=
  match s.join with
  | none => { task := none, sentStop := false, state := s }
  | some h => { task := some h, sentStop := true, state := { s with join := none } }

/-- The body of the detached task spawned by `Service::stop`: awaiting the
join handle yields `none` on a join error (nothing is written back) and
`some r` when the awaited orchestrator task finished with result `res`,
where `r = res.ok()`; in that case the parked slot is overwritten with `r`. -/
def Service.reparkOnFinish (s : ServiceState) (runResult : Option (Option Nat)) :
    ServiceState :=
  match runResult with
  | none => s
  | some r => { s with network_orchestrator := r }

end FuelCore

namespace FuelCore

/-! ### Basic lemmas about the keyspace and the modelled store -/

theorem increase_ok {k : Nat} (h : k + 1 < SIZE) : increase k = .ok (k + 1) := by
  simp [increase, h]

theorem increase_err {k : Nat} (h : ¬ k + 1 < SIZE) :
    increase k = .error keyspaceOverflow := by
  simp [increase, h]

theorem keyLt_irrefl (a : Nat × Nat) : ¬ keyLt a a := by
  unfold keyLt; omega

theorem keyLt_trans {a b c : Nat × Nat} (h1 : keyLt a b) (h2 : keyLt b c) :
    keyLt a c := by
  unfold keyLt at *; omega

theorem keyLt_of_not_of_ne {a b : Nat × Nat} (h : ¬ keyLt a b) (hne : a ≠ b) :
    keyLt b a := by
  obtain ⟨a1, a2⟩ := a
  obtain ⟨b1, b2⟩ := b
  have hne2 : ¬ (a1 = b1 ∧ a2 = b2) := by
    rintro ⟨rfl, rfl⟩; exact hne rfl
  unfold keyLt at h ⊢
  omega

theorem store_get_eq_none {s : ContractsState} {k : Nat × Nat}
    (h : ∀ e ∈ s, keyLt k e.1) : store_get s k = none := by
  induction s with
  | nil => rfl
  | cons e rest ih =>
    obtain ⟨k2, v2⟩ := e
    have h1 : keyLt k k2 := h (k2, v2) (by simp)
    have hne : k ≠ k2 := by
      rintro rfl; exact keyLt_irrefl _ h1
    simp only [store_get, if_neg hne]
    exact ih fun e he => h e (by simp [he])

theorem store_insert_fst {s : ContractsState} {k : Nat × Nat} {v : Nat}
    (hwf : StoreWf s) : (store_insert s k v).1 = store_get s k := by
  induction s with
  | nil => rfl
  | cons e rest ih =>
    obtain ⟨k2, v2⟩ := e
    rw [StoreWf, List.pairwise_cons] at hwf
    by_cases h1 : keyLt k k2
    · have : store_get ((k2, v2) :: rest) k = none := by
        apply store_get_eq_none
        intro e he
        rcases List.mem_cons.mp he with rfl | he2
        · exact h1
        · exact keyLt_trans h1 (hwf.1 e he2)
      simp [store_insert, h1, this]
    · by_cases h2 : k = k2
      · subst h2; simp [store_insert, h1, store_get]
      · simp [store_insert, h1, h2, store_get, ih hwf.2]

theorem store_insert_get {s : ContractsState} {k : Nat × Nat} {v : Nat}
    (q : Nat × Nat) :
    store_get (store_insert s k v).2 q = if q = k then some v else store_get s q := by
  induction s with
  | nil => simp [store_insert, store_get]
  | cons e rest ih =>
    obtain ⟨k2, v2⟩ := e
    by_cases h1 : keyLt k k2
    · simp [store_insert, h1, store_get]
    · by_cases h2 : k = k2
      · subst h2
        by_cases h3 : q = k <;> simp [store_insert, h1, store_get, h3]
      · by_cases h3 : q = k2
        · subst h3
          have : q ≠ k := fun h => h2 h.symm
          simp [store_insert, h1, h2, store_get, this]
        · simp [store_insert, h1, h2, store_get, h3, ih]

theorem store_insert_mem {s : ContractsState} {k : Nat × Nat} {v : Nat}
    {e : (Nat × Nat) × Nat} (h : e ∈ (store_insert s k v).2) :
    e = (k, v) ∨ e ∈ s := by
  induction s with
  | nil => simpa [store_insert] using h
  | cons e2 rest ih =>
    obtain ⟨k2, v2⟩ := e2
    by_cases h1 : keyLt k k2
    · simp only [store_insert, if_pos h1] at h
      rcases List.mem_cons.mp h with rfl | h3
      · exact Or.inl rfl
      · exact Or.inr h3
    · by_cases h2 : k = k2
      · subst h2
        simp only [store_insert, if_neg h1, if_pos rfl] at h
        rcases List.mem_cons.mp h with rfl | h3
        · exact Or.inl rfl
        · exact Or.inr (by simp [h3])
      · simp only [store_insert, if_neg h1, if_neg h2] at h
        rcases List.mem_cons.mp h with rfl | h3
        · exact Or.inr (by simp)
        · rcases ih h3 with h4 | h4
          · exact Or.inl h4
          · exact Or.inr (by simp [h4])

theorem store_insert_wf {s : ContractsState} {k : Nat × Nat} {v : Nat}
    (hwf : StoreWf s) : StoreWf (store_insert s k v).2 := by
  induction s with
  | nil => simp [store_insert, StoreWf]
  | cons e rest ih =>
    obtain ⟨k2, v2⟩ := e
    rw [StoreWf, List.pairwise_cons] at hwf
    by_cases h1 : keyLt k k2
    · simp only [store_insert, if_pos h1]
      rw [StoreWf, List.pairwise_cons]
      refine ⟨?_, ?_⟩
      · intro e he
        rcases List.mem_cons.mp he with rfl | h3
        · exact h1
        · exact keyLt_trans h1 (hwf.1 e h3)
      · rw [List.pairwise_cons]
        exact ⟨hwf.1, hwf.2⟩
    · by_cases h2 : k = k2
      · subst h2
        have heq : store_insert ((k, v2) :: rest) k v = (some v2, (k, v) :: rest) := by
          simp [store_insert, h1]
        rw [heq]
        rw [StoreWf, List.pairwise_cons]
        exact ⟨hwf.1, hwf.2⟩
      · simp only [store_insert, if_neg h1, if_neg h2]
        rw [StoreWf, List.pairwise_cons]
        refine ⟨?_, ih hwf.2⟩
        intro e he
        rcases store_insert_mem he with rfl | h3
        · exact keyLt_of_not_of_ne h1 h2
        · exact hwf.1 e h3

theorem store_remove_fst {s : ContractsState} {k : Nat × Nat} :
    (store_remove s k).1 = store_get s k := by
  induction s with
  | nil => rfl
  | cons e rest ih =>
    obtain ⟨k2, v2⟩ := e
    by_cases h1 : k = k2 <;> simp [store_remove, store_get, h1, ih]

theorem store_remove_mem {s : ContractsState} {k : Nat × Nat}
    {e : (Nat × Nat) × Nat} (h : e ∈ (store_remove s k).2) : e ∈ s := by
  induction s with
  | nil => simp [store_remove] at h
  | cons e2 rest ih =>
    obtain ⟨k2, v2⟩ := e2
    by_cases h1 : k = k2
    · simp only [store_remove, if_pos h1] at h
      exact List.mem_cons_of_mem _ h
    · simp only [store_remove, if_neg h1] at h
      rcases List.mem_cons.mp h with rfl | h3
      · exact List.mem_cons_self _ _
      · exact List.mem_cons_of_mem _ (ih h3)

theorem store_remove_wf {s : ContractsState} {k : Nat × Nat}
    (hwf : StoreWf s) : StoreWf (store_remove s k).2 := by
  induction s with
  | nil => simp [store_remove, StoreWf]
  | cons e rest ih =>
    obtain ⟨k2, v2⟩ := e
    rw [StoreWf, List.pairwise_cons] at hwf
    by_cases h1 : k = k2
    · simp only [store_remove, if_pos h1]
      exact hwf.2
    · simp only [store_remove, if_neg h1]
      rw [StoreWf, List.pairwise_cons]
      exact ⟨fun e he => hwf.1 e (store_remove_mem he), ih hwf.2⟩

theorem store_remove_get {s : ContractsState} {k : Nat × Nat}
    (hwf : StoreWf s) (q : Nat × Nat) :
    store_get (store_remove s k).2 q = if q = k then none else store_get s q := by
  induction s with
  | nil => simp [store_remove, store_get]
  | cons e rest ih =>
    obtain ⟨k2, v2⟩ := e
    rw [StoreWf, List.pairwise_cons] at hwf
    by_cases h1 : k = k2
    · subst h1
      by_cases h3 : q = k
      · subst h3
        simp only [store_remove, if_pos rfl, if_pos rfl]
        apply store_get_eq_none
        exact hwf.1
      · simp [store_remove, store_get, h3]
    · by_cases h3 : q = k2
      · subst h3
        have : q ≠ k := fun h => h1 h.symm
        simp [store_remove, h1, store_get, this]
      · simp [store_remove, h1, store_get, h3, ih hwf.2]


/-! ### The range read loops -/

theorem iterGet_eq_none {l : List (Nat × Nat)} {k : Nat}
    (h : ∀ e ∈ l, k < e.1) : iterGet l k = none := by
  induction l with
  | nil => rfl
  | cons e rest ih =>
    obtain ⟨k2, v2⟩ := e
    have h1 : k < k2 := h (k2, v2) (by simp)
    have hne : k ≠ k2 := by omega
    simp only [iterGet, if_neg hne]
    exact ih fun e he => h e (by simp [he])

theorem map_none_range (n : Nat) :
    (List.range n).map (fun _ => (none : Option Nat)) = List.replicate n none := by
  induction n with
  | zero => rfl
  | succ r ih =>
    rw [List.range_succ_eq_map, List.map_cons, List.map_map, List.replicate_succ]
    exact congrArg (none :: ·) ih

theorem rangePad_ok :
    ∀ (n expected : Nat) (acc : List (Option Nat)),
    (n = 0 ∨ expected + n < SIZE) →
    rangePad expected n acc = .ok (acc ++ List.replicate n none) := by
  intro n
  induction n with
  | zero => intro expected acc _; simp [rangePad]
  | succ r ih =>
    intro expected acc h
    have h1 : expected + 1 < SIZE := by omega
    simp only [rangePad, increase_ok h1]
    rw [ih (expected + 1) (acc ++ [none]) (by omega)]
    simp [List.replicate_succ]

theorem rangeInner_ok (a v : Nat) :
    ∀ (n expected : Nat) (acc : List (Option Nat)),
    (n = 0 ∨ expected + n < SIZE) →
    rangeInner a v expected n acc =
      .ok (expected + min (a + 1 - expected) n, n - min (a + 1 - expected) n,
        acc ++ (List.range (min (a + 1 - expected) n)).map
          fun i => if expected + i = a then some v else none) := by
  intro n
  induction n with
  | zero =>
    intro expected acc _
    simp [rangeInner]
  | succ r ih =>
    intro expected acc h
    by_cases hle : expected ≤ a
    · have h1 : expected + 1 < SIZE := by omega
      have hmin2 : a + 1 - (expected + 1) = a - expected := by omega
      simp only [rangeInner, if_pos hle, increase_ok h1]
      rw [ih (expected + 1) _ (by omega), hmin2]
      have hmin : min (a + 1 - expected) (r + 1) = min (a - expected) r + 1 := by
        omega
      rw [hmin]
      simp only [Except.ok.injEq, Prod.mk.injEq]
      refine ⟨by omega, by omega, ?_⟩
      rw [List.range_succ_eq_map, List.map_cons, List.map_map]
      have hfun : ((fun i => if expected + i = a then some v else none) ∘ Nat.succ)
          = fun i => if expected + 1 + i = a then some v else none := by
        funext i
        simp only [Function.comp]
        have heq : expected + Nat.succ i = expected + 1 + i := by omega
        rw [heq]
      rw [hfun]
      simp [List.append_assoc]
    · have hmin : min (a + 1 - expected) (r + 1) = 0 := by omega
      simp only [rangeInner, if_neg hle, hmin]
      simp

theorem rangeOuter_cons_eq {a v : Nat} {rest : List (Nat × Nat)}
    {expected r : Nat} {acc : List (Option Nat)} {e2 r2 : Nat}
    {acc2 : List (Option Nat)}
    (hinner : rangeInner a v expected (r + 1) acc = .ok (e2, r2, acc2)) :
    rangeOuter ((a, v) :: rest) expected (r + 1) acc = rangeOuter rest e2 r2 acc2 := by
  simp only [rangeOuter, hinner]

theorem rangeRun_ok :
    ∀ (iter : List (Nat × Nat)) (n expected : Nat) (acc : List (Option Nat)),
    iter.Pairwise (fun x y => x.1 < y.1) →
    (∀ e ∈ iter, expected ≤ e.1) →
    (n = 0 ∨ expected + n < SIZE) →
    rangeFinish (rangeOuter iter expected n acc) =
      .ok (acc ++ (List.range n).map fun i => iterGet iter (expected + i)) := by
  intro iter
  induction iter with
  | nil =>
    intro n expected acc _ _ h
    cases n with
    | zero => simp [rangeOuter, rangeFinish, rangePad]
    | succ r =>
      simp only [rangeOuter, rangeFinish]
      rw [rangePad_ok _ _ _ h]
      congr 1
      rw [show (fun i => iterGet [] (expected + i)) = fun _ => (none : Option Nat)
        from rfl]
      rw [map_none_range]
  | cons hd rest ih =>
    obtain ⟨a, v⟩ := hd
    intro n expected acc hpw hlb h
    cases n with
    | zero => simp [rangeOuter, rangeFinish, rangePad]
    | succ r =>
      rw [List.pairwise_cons] at hpw
      have hea : expected ≤ a := hlb (a, v) (by simp)
      have hinner := rangeInner_ok a v (r + 1) expected acc h
      rw [rangeOuter_cons_eq hinner]
      set m := min (a + 1 - expected) (r + 1) with hm
      have hm1 : m ≤ a + 1 - expected := Nat.min_le_left _ _
      have hm2 : m ≤ r + 1 := Nat.min_le_right _ _
      rw [ih (r + 1 - m) (expected + m) _ hpw.2
        (fun e he => by have := hpw.1 e he; omega)
        (by omega)]
      have hsplit : List.range (r + 1)
          = List.range m ++ (List.range (r + 1 - m)).map (fun x => m + x) := by
        have heq : r + 1 = m + (r + 1 - m) := by omega
        rw [heq, List.range_add]
        have heq2 : m + (r + 1 - m) - m = r + 1 - m := by omega
        rw [heq2]
      rw [hsplit, List.map_append, List.map_map]
      have hA : (List.range m).map (fun i => iterGet ((a, v) :: rest) (expected + i))
          = (List.range m).map (fun i => if expected + i = a then some v else none) := by
        apply List.map_congr_left
        intro i hi
        rw [List.mem_range] at hi
        by_cases hia : expected + i = a
        · simp [iterGet, hia]
        · have hlt : expected + i < a := by omega
          simp only [iterGet, if_neg hia]
          exact iterGet_eq_none fun e he => by have := hpw.1 e he; omega
      have hB : (List.range (r + 1 - m)).map
            ((fun i => iterGet ((a, v) :: rest) (expected + i)) ∘ fun x => m + x)
          = (List.range (r + 1 - m)).map (fun i => iterGet rest (expected + m + i)) := by
        apply List.map_congr_left
        intro i hi
        rw [List.mem_range] at hi
        simp only [Function.comp]
        have hmor : m = a + 1 - expected ∨ m = r + 1 := min_choice _ _
        have hne : expected + (m + i) ≠ a := by omega
        simp only [iterGet, if_neg hne]
        have heq : expected + (m + i) = expected + m + i := by omega
        rw [heq]
      rw [hA, hB]
      simp [List.append_assoc]

/-! ### The iterator projection of a well-formed store -/

theorem iter_all_pairwise {store : ContractsState} {cid start : Nat}
    (hwf : StoreWf store) :
    (iter_all store cid start).Pairwise fun x y => x.1 < y.1 := by
  unfold iter_all
  rw [List.pairwise_map]
  have h1 : (store.filter fun e => decide (e.1.1 = cid ∧ start ≤ e.1.2)).Pairwise
      fun a b => keyLt a.1 b.1 :=
    List.Pairwise.sublist (List.filter_sublist store) hwf
  refine h1.imp_of_mem ?_
  intro a b ha hb hlt
  have ha2 := (List.mem_filter.mp ha).2
  have hb2 := (List.mem_filter.mp hb).2
  rw [decide_eq_true_eq] at ha2 hb2
  unfold keyLt at hlt
  dsimp only
  omega

theorem iter_all_lb {store : ContractsState} {cid start : Nat} :
    ∀ e ∈ iter_all store cid start, start ≤ e.1 := by
  intro e he
  unfold iter_all at he
  rw [List.mem_map] at he
  obtain ⟨x, hx, rfl⟩ := he
  have h2 := (List.mem_filter.mp hx).2
  rw [decide_eq_true_eq] at h2
  exact h2.2

theorem iter_all_get {store : ContractsState} {cid start k : Nat} (hk : start ≤ k) :
    iterGet (iter_all store cid start) k = store_get store (cid, k) := by
  induction store with
  | nil => rfl
  | cons e rest ih =>
    obtain ⟨⟨c, kk⟩, v⟩ := e
    by_cases hf : c = cid ∧ start ≤ kk
    · have hstep : iter_all (((c, kk), v) :: rest) cid start
          = (kk, v) :: iter_all rest cid start := by
        simp [iter_all, List.filter_cons, hf]
      rw [hstep]
      by_cases hkk : k = kk
      · subst hkk
        have hpair : (cid, k) = (c, k) := by rw [hf.1]
        simp [iterGet, store_get, hpair]
      · have hne : (cid, k) ≠ (c, kk) := by
          intro hcontra
          rw [Prod.mk.injEq] at hcontra
          exact hkk hcontra.2
        simp only [iterGet, if_neg hkk, store_get, if_neg hne]
        exact ih
    · have hstep : iter_all (((c, kk), v) :: rest) cid start
          = iter_all rest cid start := by
        simp [iter_all, List.filter_cons, hf]
      rw [hstep]
      have hne : (cid, k) ≠ (c, kk) := by
        intro hcontra
        rw [Prod.mk.injEq] at hcontra
        exact hf ⟨hcontra.1.symm, hcontra.2 ▸ hk⟩
      simp only [store_get, if_neg hne]
      exact ih

/-- Success characterisation of `merkle_contract_state_range`: when `n = 0`
or `start + n ≤ SIZE - 1`, the read succeeds and element `i` is the store
content of slot `start + i` of the contract. -/
theorem range_spec {store : ContractsState} {cid start n : Nat}
    (hwf : StoreWf store) (h : n = 0 ∨ start + n < SIZE) :
    merkle_contract_state_range store cid start n =
      .ok ((List.range n).map fun i => store_get store (cid, start + i)) := by
  unfold merkle_contract_state_range
  rw [rangeRun_ok (iter_all store cid start) n start [] (iter_all_pairwise hwf)
    iter_all_lb h]
  simp only [List.nil_append]
  congr 1
  apply List.map_congr_left
  intro i _
  exact iter_all_get (by omega)


/-! ### The insert and remove loops -/

theorem insertLoop_ok {cid : Nat} :
    ∀ (values : List Nat) (s : ContractsState) (cur : Nat) (fu : Bool),
    StoreWf s → cur + values.length < SIZE →
    ∃ fu2 s2, insertLoop s cid cur values fu = (.ok fu2, s2) ∧
      StoreWf s2 ∧
      (∀ i, i < values.length → store_get s2 (cid, cur + i) = values[i]?) ∧
      (∀ q, (q.1 = cid → q.2 < cur ∨ cur + values.length ≤ q.2) →
        store_get s2 q = store_get s q) ∧
      (fu2 = false ↔ (fu = false ∧ ∀ i, i < values.length →
        (store_get s (cid, cur + i)).isSome = true)) := by
  intro values
  induction values with
  | nil =>
    intro s cur fu hwf _
    refine ⟨fu, s, rfl, hwf, ?_, fun q _ => rfl, ?_⟩
    · intro i hi
      simp at hi
    · simp
  | cons v rest ih =>
    intro s cur fu hwf hsz
    simp only [List.length_cons] at hsz
    rcases hins : store_insert s (cid, cur) v with ⟨prior, s1⟩
    have hs1 : s1 = (store_insert s (cid, cur) v).2 := by rw [hins]
    have hprior : prior = store_get s (cid, cur) := by
      rw [← store_insert_fst hwf, hins]
    have hwf1 : StoreWf s1 := hs1 ▸ store_insert_wf hwf
    have hget1 : ∀ q, store_get s1 q
        = if q = (cid, cur) then some v else store_get s q := by
      intro q; rw [hs1]; exact store_insert_get q
    have h1 : cur + 1 < SIZE := by omega
    obtain ⟨fu2, s2, heq, hwf3, hget, hother, hflag⟩ :=
      ih s1 (cur + 1) (fu || prior.isNone) hwf1 (by omega)
    refine ⟨fu2, s2, ?_, hwf3, ?_, ?_, ?_⟩
    · simp only [insertLoop, hins, increase_ok h1]
      exact heq
    · intro i hi
      simp only [List.length_cons] at hi
      cases i with
      | zero =>
        have hcond := hother (cid, cur) fun _ => Or.inl (by omega)
        rw [show cur + 0 = cur from rfl, hcond, hget1]
        simp
      | succ j =>
        have hj := hget j (by omega)
        rw [show cur + (j + 1) = cur + 1 + j by omega, hj]
        simp
    · intro q hq
      obtain ⟨q1, q2⟩ := q
      simp only [List.length_cons] at hq
      have hq2 : (q1, q2).1 = cid → (q1, q2).2 < cur + 1 ∨ cur + 1 + rest.length ≤ (q1, q2).2 := by
        intro h2
        rcases hq h2 with h3 | h3
        · left; omega
        · right; omega
      rw [hother (q1, q2) hq2, hget1]
      rw [if_neg ?hside]
      case hside =>
        intro hcontra
        rw [Prod.mk.injEq] at hcontra
        rcases hq (by omega) with h3 | h3 <;> omega
    · rw [hflag]
      constructor
      · rintro ⟨h2, h3⟩
        rw [Bool.or_eq_false_iff] at h2
        refine ⟨h2.1, ?_⟩
        intro i hi
        simp only [List.length_cons] at hi
        cases i with
        | zero =>
          rw [show cur + 0 = cur from rfl, ← hprior]
          cases prior with
          | none => simp at h2
          | some x => simp
        | succ j =>
          have hj := h3 j (by omega)
          rw [hget1] at hj
          rw [if_neg (by intro hc; rw [Prod.mk.injEq] at hc; omega)] at hj
          rw [show cur + (j + 1) = cur + 1 + j by omega]
          exact hj
      · rintro ⟨h2, h3⟩
        refine ⟨?_, ?_⟩
        · rw [Bool.or_eq_false_iff]
          refine ⟨h2, ?_⟩
          have h0 := h3 0 (by simp)
          rw [show cur + 0 = cur from rfl] at h0
          rw [hprior]
          cases hg : store_get s (cid, cur) with
          | none => rw [hg] at h0; simp at h0
          | some x => simp
        · intro i hi
          rw [hget1, if_neg (by intro hc; rw [Prod.mk.injEq] at hc; omega)]
          have hj := h3 (i + 1) (by simp only [List.length_cons]; omega)
          rw [show cur + (i + 1) = cur + 1 + i by omega] at hj
          exact hj

/-- Success characterisation of `merkle_contract_state_insert_range`: a
successful call had `start + |values| ≤ SIZE - 1`, the slots of the span now
hold the values, every other slot is untouched, and the result is
`AllOverwritten` exactly when every slot of the span was previously set. -/
theorem insert_range_ok {store : ContractsState} {cid start : Nat}
    {values : List Nat} {res : Option Unit} {s2 : ContractsState}
    (hwf : StoreWf store)
    (h : merkle_contract_state_insert_range store cid start values = (.ok res, s2)) :
    start + values.length < SIZE ∧ StoreWf s2 ∧
      (∀ i, i < values.length → store_get s2 (cid, start + i) = values[i]?) ∧
      (∀ q, (q.1 = cid → q.2 < start ∨ start + values.length ≤ q.2) →
        store_get s2 q = store_get store q) ∧
      (res = some () ↔ ∀ i, i < values.length →
        (store_get store (cid, start + i)).isSome = true) := by
  by_cases hpre : start + values.length < SIZE
  · obtain ⟨fu2, s3, heq, hwf3, hget, hother, hflag⟩ :=
      insertLoop_ok values store start false hwf hpre
    rw [merkle_contract_state_insert_range, if_pos hpre, heq] at h
    rw [Prod.mk.injEq, Except.ok.injEq] at h
    obtain ⟨hres, hs⟩ := h
    subst hs
    refine ⟨hpre, hwf3, hget, hother, ?_⟩
    rw [← hres]
    cases fu2 with
    | false =>
      rw [if_neg Bool.false_ne_true]
      exact iff_of_true rfl ((hflag.mp rfl).2)
    | true =>
      simp only [if_pos rfl]
      refine iff_of_false (by simp) ?_
      intro hall
      exact absurd (hflag.mpr ⟨rfl, hall⟩) (by simp)
  · rw [merkle_contract_state_insert_range, if_neg hpre] at h
    rw [Prod.mk.injEq] at h
    exact absurd h.1 (by simp)

theorem removeLoop_ok {cid : Nat} :
    ∀ (n : Nat) (s : ContractsState) (cur : Nat) (fu : Bool),
    StoreWf s → cur + n < SIZE →
    ∃ fu2 s2, removeLoop s cid cur n fu = (.ok fu2, s2) ∧
      StoreWf s2 ∧
      (∀ i, i < n → store_get s2 (cid, cur + i) = none) ∧
      (∀ q, (q.1 = cid → q.2 < cur ∨ cur + n ≤ q.2) →
        store_get s2 q = store_get s q) ∧
      (fu2 = false ↔ (fu = false ∧ ∀ i, i < n →
        (store_get s (cid, cur + i)).isSome = true)) := by
  intro n
  induction n with
  | zero =>
    intro s cur fu hwf _
    refine ⟨fu, s, rfl, hwf, ?_, fun q _ => rfl, ?_⟩
    · intro i hi
      simp at hi
    · simp
  | succ m ih =>
    intro s cur fu hwf hsz
    rcases hrem : store_remove s (cid, cur) with ⟨prior, s1⟩
    have hs1 : s1 = (store_remove s (cid, cur)).2 := by rw [hrem]
    have hprior : prior = store_get s (cid, cur) := by
      rw [← store_remove_fst, hrem]
    have hwf1 : StoreWf s1 := hs1 ▸ store_remove_wf hwf
    have hget1 : ∀ q, store_get s1 q
        = if q = (cid, cur) then none else store_get s q := by
      intro q; rw [hs1]; exact store_remove_get hwf q
    have h1 : cur + 1 < SIZE := by omega
    obtain ⟨fu2, s2, heq, hwf3, hget, hother, hflag⟩ :=
      ih s1 (cur + 1) (fu || prior.isNone) hwf1 (by omega)
    refine ⟨fu2, s2, ?_, hwf3, ?_, ?_, ?_⟩
    · simp only [removeLoop, hrem, increase_ok h1]
      exact heq
    · intro i hi
      cases i with
      | zero =>
        have hcond := hother (cid, cur) fun _ => Or.inl (by omega)
        rw [show cur + 0 = cur from rfl, hcond, hget1]
        simp
      | succ j =>
        have hj := hget j (by omega)
        rw [show cur + (j + 1) = cur + 1 + j by omega, hj]
    · intro q hq
      obtain ⟨q1, q2⟩ := q
      have hq2 : (q1, q2).1 = cid → (q1, q2).2 < cur + 1 ∨ cur + 1 + m ≤ (q1, q2).2 := by
        intro h2
        rcases hq h2 with h3 | h3
        · left; omega
        · right; omega
      rw [hother (q1, q2) hq2, hget1]
      rw [if_neg ?hside2]
      case hside2 =>
        intro hcontra
        rw [Prod.mk.injEq] at hcontra
        rcases hq (by omega) with h3 | h3 <;> omega
    · rw [hflag]
      constructor
      · rintro ⟨h2, h3⟩
        rw [Bool.or_eq_false_iff] at h2
        refine ⟨h2.1, ?_⟩
        intro i hi
        cases i with
        | zero =>
          rw [show cur + 0 = cur from rfl, ← hprior]
          cases prior with
          | none => simp at h2
          | some x => simp
        | succ j =>
          have hj := h3 j (by omega)
          rw [hget1] at hj
          rw [if_neg (by intro hc; rw [Prod.mk.injEq] at hc; omega)] at hj
          rw [show cur + (j + 1) = cur + 1 + j by omega]
          exact hj
      · rintro ⟨h2, h3⟩
        refine ⟨?_, ?_⟩
        · rw [Bool.or_eq_false_iff]
          refine ⟨h2, ?_⟩
          have h0 := h3 0 (by omega)
          rw [show cur + 0 = cur from rfl] at h0
          rw [hprior]
          cases hg : store_get s (cid, cur) with
          | none => rw [hg] at h0; simp at h0
          | some x => simp
        · intro i hi
          rw [hget1, if_neg (by intro hc; rw [Prod.mk.injEq] at hc; omega)]
          have hj := h3 (i + 1) (by omega)
          rw [show cur + (i + 1) = cur + 1 + i by omega] at hj
          exact hj

theorem removeLoop_overflow {cid : Nat} :
    ∀ (n : Nat) (s : ContractsState) (cur : Nat) (fu : Bool),
    StoreWf s → cur < SIZE → SIZE ≤ cur + n →
    ∃ s2, removeLoop s cid cur n fu = (.error keyspaceOverflow, s2) ∧
      (∀ k, cur ≤ k → k < SIZE → store_get s2 (cid, k) = none) ∧
      (∀ q, (q.1 = cid → q.2 < cur ∨ SIZE ≤ q.2) →
        store_get s2 q = store_get s q) := by
  intro n
  induction n with
  | zero =>
    intro s cur fu _ hcur hov
    exact absurd hov (by omega)
  | succ m ih =>
    intro s cur fu hwf hcur hov
    rcases hrem : store_remove s (cid, cur) with ⟨prior, s1⟩
    have hs1 : s1 = (store_remove s (cid, cur)).2 := by rw [hrem]
    have hwf1 : StoreWf s1 := hs1 ▸ store_remove_wf hwf
    have hget1 : ∀ q, store_get s1 q
        = if q = (cid, cur) then none else store_get s q := by
      intro q; rw [hs1]; exact store_remove_get hwf q
    by_cases h1 : cur + 1 < SIZE
    · obtain ⟨s2, heq, hnone, hother⟩ :=
        ih s1 (cur + 1) (fu || prior.isNone) hwf1 (by omega) (by omega)
      refine ⟨s2, ?_, ?_, ?_⟩
      · simp only [removeLoop, hrem, increase_ok h1]
        exact heq
      · intro k hk1 hk2
        by_cases hkc : k = cur
        · subst hkc
          have hcond := hother (cid, k) fun _ => Or.inl (by omega)
          rw [hcond, hget1]
          simp
        · exact hnone k (by omega) hk2
      · intro q hq
        obtain ⟨q1, q2⟩ := q
        have hq2 : (q1, q2).1 = cid → (q1, q2).2 < cur + 1 ∨ SIZE ≤ (q1, q2).2 := by
          intro h2
          rcases hq h2 with h3 | h3
          · left; omega
          · right; omega
        rw [hother (q1, q2) hq2, hget1]
        rw [if_neg ?hside3]
        case hside3 =>
          intro hcontra
          rw [Prod.mk.injEq] at hcontra
          rcases hq (by omega) with h3 | h3 <;> omega
    · refine ⟨s1, ?_, ?_, ?_⟩
      · simp only [removeLoop, hrem, increase_err h1]
      · intro k hk1 hk2
        have hkc : k = cur := by omega
        subst hkc
        rw [hget1]
        simp
      · intro q hq
        obtain ⟨q1, q2⟩ := q
        rw [hget1]
        rw [if_neg ?hside4]
        case hside4 =>
          intro hcontra
          rw [Prod.mk.injEq] at hcontra
          rcases hq (by omega) with h3 | h3 <;> omega

/-- Success characterisation of `merkle_contract_state_remove_range`: under
`start + n ≤ SIZE - 1` the call succeeds, the slots of the span are absent
afterwards, every other slot is untouched, and the result is `AllRemoved`
exactly when every slot of the span was previously set. -/
theorem remove_range_ok {store : ContractsState} {cid start n : Nat}
    (hwf : StoreWf store) (hsz : start + n < SIZE) :
    ∃ res s2, merkle_contract_state_remove_range store cid start n = (.ok res, s2) ∧
      StoreWf s2 ∧
      (∀ i, i < n → store_get s2 (cid, start + i) = none) ∧
      (∀ q, (q.1 = cid → q.2 < start ∨ start + n ≤ q.2) →
        store_get s2 q = store_get store q) ∧
      (res = some () ↔ ∀ i, i < n →
        (store_get store (cid, start + i)).isSome = true) := by
  obtain ⟨fu2, s2, heq, hwf2, hnone, hother, hflag⟩ :=
    removeLoop_ok n store start false hwf hsz
  refine ⟨if fu2 then none else some (), s2, ?_, hwf2, hnone, hother, ?_⟩
  · rw [merkle_contract_state_remove_range, heq]
  · cases fu2 with
    | false =>
      rw [if_neg Bool.false_ne_true]
      exact iff_of_true rfl ((hflag.mp rfl).2)
    | true =>
      simp only [if_pos rfl]
      refine iff_of_false (by simp) ?_
      intro hall
      exact absurd (hflag.mpr ⟨rfl, hall⟩) (by simp)


theorem range_map_getElem? {α : Type} (l : List α) :
    (List.range l.length).map (fun i => l[i]?) = l.map some := by
  induction l with
  | nil => rfl
  | cons a rest ih =>
    rw [List.length_cons, List.range_succ_eq_map, List.map_cons, List.map_map,
      List.map_cons]
    have hfun : ((fun i => (a :: rest)[i]?) ∘ Nat.succ) = fun i => rest[i]? := by
      funext i
      simp
    rw [hfun, ih]
    simp

/-! ### The claims -/

/-- Claim C1, counterexample: with an empty store, reading `n = 1` slots
from `start = 2 ^ 256 - 1` satisfies `start + n ≤ 2 ^ 256`, yet the call
fails with the keyspace overflow error instead of returning one element:
the cursor is advanced once more after the final pad. -/
theorem C1_counterexample :
    (SIZE - 1) + 1 ≤ SIZE ∧
    merkle_contract_state_range [] 0 (SIZE - 1) 1 = .error keyspaceOverflow := by
  exact ⟨by decide, rfl⟩

/-- Claim C1 (amended): for every contract id, start key, and count `n` such
that `n = 0` or `start + n ≤ 2 ^ 256 - 1` (as exact integers),
`merkle_contract_state_range` succeeds and returns a sequence of exactly `n`
elements — the store content of slot `start + i` at position `i` — for any
well-formed contents of the underlying store. -/
theorem C1_read_totality (store : ContractsState) (cid start n : Nat)
    (hwf : StoreWf store) (h : n = 0 ∨ start + n ≤ SIZE - 1) :
    ∃ out, merkle_contract_state_range store cid start n = .ok out ∧
      out.length = n ∧
      out = (List.range n).map fun i => store_get store (cid, start + i) := by
  have hpos : 0 < SIZE := by decide
  have h2 : n = 0 ∨ start + n < SIZE := by omega
  refine ⟨_, range_spec hwf h2, ?_, rfl⟩
  simp

theorem C1_read_totality_witness :
    StoreWf [((0, 1), 5)] ∧
    ∃ out, merkle_contract_state_range [((0, 1), 5)] 0 0 3 = .ok out ∧
      out.length = 3 ∧
      out = (List.range 3).map fun i => store_get [((0, 1), 5)] (0, 0 + i) := by
  have hwf : StoreWf [((0, 1), 5)] := by simp [StoreWf]
  exact ⟨hwf, C1_read_totality [((0, 1), 5)] 0 0 3 hwf (Or.inr (by decide))⟩

/-- Claim C2, counterexample: removing `n = 2` slots from
`start = 2 ^ 256 - 1` violates `start + n ≤ 2 ^ 256` and fails with the
keyspace overflow error, but the slot at key `2 ^ 256 - 1`, previously set,
has been removed: the store after the failed call differs from the store
before it. -/
theorem C2_counterexample :
    SIZE < (SIZE - 1) + 2 ∧
    store_get [((0, SIZE - 1), 7)] (0, SIZE - 1) = some 7 ∧
    merkle_contract_state_remove_range [((0, SIZE - 1), 7)] 0 (SIZE - 1) 2
      = (.error keyspaceOverflow, []) := by
  exact ⟨by decide, rfl, rfl⟩

/-- Claim C2 (amended): when the span violates `start + n ≤ 2 ^ 256`, an
insert fails with the keyspace overflow error and no slot is modified (the
preflight rejects the range before any write), while a remove fails with the
same error only after having removed the contract's slots from `start` to
the end of the keyspace; every other slot is unchanged. -/
theorem C2_overflow_atomicity (store : ContractsState) (cid start : Nat)
    (values : List Nat) (n : Nat) (hwf : StoreWf store) (hs : start < SIZE) :
    (SIZE < start + values.length →
      merkle_contract_state_insert_range store cid start values
        = (.error keyspaceOverflow, store)) ∧
    (SIZE < start + n →
      ∃ s2, merkle_contract_state_remove_range store cid start n
          = (.error keyspaceOverflow, s2) ∧
        (∀ k, start ≤ k → k < SIZE → store_get s2 (cid, k) = none) ∧
        (∀ q, (q.1 = cid → q.2 < start ∨ SIZE ≤ q.2) →
          store_get s2 q = store_get store q)) := by
  constructor
  · intro hv
    have hc : ¬ start + values.length < SIZE := by omega
    rw [merkle_contract_state_insert_range, if_neg hc]
  · intro hv
    obtain ⟨s2, heq, hnone, hother⟩ :=
      removeLoop_overflow n store start false hwf hs (by omega)
    refine ⟨s2, ?_, hnone, hother⟩
    unfold merkle_contract_state_remove_range
    rw [heq]

theorem C2_overflow_atomicity_witness :
    SIZE - 1 < SIZE ∧ SIZE < (SIZE - 1) + 2 ∧
    merkle_contract_state_insert_range [] 0 (SIZE - 1) [1, 2]
      = (.error keyspaceOverflow, []) ∧
    ∃ s2, merkle_contract_state_remove_range [] 0 (SIZE - 1) 2
        = (.error keyspaceOverflow, s2) ∧
      (∀ k, SIZE - 1 ≤ k → k < SIZE → store_get s2 (0, k) = none) ∧
      (∀ q, (q.1 = 0 → q.2 < SIZE - 1 ∨ SIZE ≤ q.2) →
        store_get s2 q = store_get [] q) := by
  have hs : SIZE - 1 < SIZE := by decide
  have hv : SIZE < (SIZE - 1) + 2 := by decide
  have h := C2_overflow_atomicity [] 0 (SIZE - 1) [1, 2] 2 List.Pairwise.nil hs
  exact ⟨hs, hv, h.1 (by decide), h.2 hv⟩

/-- Claim C3 (confirmed): whenever a range insert of a non-empty value list
succeeds, a range read of the same span from the resulting store succeeds
and returns exactly the inserted values, each wrapped in `some`, in order. -/
theorem C3_insert_read_roundtrip (store : ContractsState) (cid start : Nat)
    (values : List Nat) (res : Option Unit) (s2 : ContractsState)
    (hwf : StoreWf store) (_hne : values ≠ [])
    (h : merkle_contract_state_insert_range store cid start values = (.ok res, s2)) :
    merkle_contract_state_range s2 cid start values.length
      = .ok (values.map some) := by
  obtain ⟨hpre, hwf2, hget, _, _⟩ := insert_range_ok hwf h
  rw [range_spec hwf2 (Or.inr hpre)]
  congr 1
  rw [show values.map some
      = (List.range values.length).map (fun i => values[i]?) from
    (range_map_getElem? values).symm]
  apply List.map_congr_left
  intro i hi
  rw [List.mem_range] at hi
  exact hget i hi

theorem C3_insert_read_roundtrip_witness :
    merkle_contract_state_insert_range [] 0 0 [5] = (.ok none, [((0, 0), 5)]) ∧
    merkle_contract_state_range [((0, 0), 5)] 0 0 1 = .ok [some 5] := by
  refine ⟨rfl, ?_⟩
  exact C3_insert_read_roundtrip [] 0 0 [5] none [((0, 0), 5)]
    List.Pairwise.nil (by simp) rfl

/-- Claim C4, counterexample: with `start = 2 ^ 256 - 1` and `n = 1` (so
`n ≥ 1` and `start + n ≤ 2 ^ 256`), `merkle_contract_state_remove_range`
fails with the keyspace overflow error and leaves the store empty, so the
second identical call returns that error rather than the `SomeAbsent`
result `Ok(None)`. -/
theorem C4_counterexample :
    1 ≤ 1 ∧ (SIZE - 1) + 1 ≤ SIZE ∧
    merkle_contract_state_remove_range [] 0 (SIZE - 1) 1
      = (.error keyspaceOverflow, []) := by
  exact ⟨by decide, by decide, rfl⟩

/-- Claim C4 (amended): for every contract id, start key, and `n ≥ 1` with
`start + n ≤ 2 ^ 256 - 1`, after one `merkle_contract_state_remove_range`
call over the span, a second identical call returns the `SomeAbsent` result
`Ok(None)`, and every slot in `[start, start + n)` is absent from the store
afterwards. -/
theorem C4_remove_idempotence (store : ContractsState) (cid start n : Nat)
    (r1 : Except DbError (Option Unit)) (s1 : ContractsState)
    (hwf : StoreWf store) (hn : 1 ≤ n) (hsz : start + n ≤ SIZE - 1)
    (h : merkle_contract_state_remove_range store cid start n = (r1, s1)) :
    ∃ s2, merkle_contract_state_remove_range s1 cid start n = (.ok none, s2) ∧
      ∀ i, i < n → store_get s2 (cid, start + i) = none := by
  have hpos : 0 < SIZE := by decide
  have hsz2 : start + n < SIZE := by omega
  obtain ⟨res1, s1x, heq, hwf1, hnone1, _, _⟩ := remove_range_ok hwf hsz2
  rw [heq, Prod.mk.injEq] at h
  obtain ⟨hr, hs⟩ := h
  subst hs
  obtain ⟨res2, s2, heq2, hwf2, hnone2, hother2, hflag2⟩ := remove_range_ok hwf1 hsz2
  have hres2 : res2 = none := by
    cases res2 with
    | none => rfl
    | some u =>
      cases u
      have h0 := hflag2.mp rfl 0 (by omega)
      rw [hnone1 0 (by omega)] at h0
      simp at h0
  rw [hres2] at heq2
  exact ⟨s2, heq2, hnone2⟩

theorem C4_remove_idempotence_witness :
    merkle_contract_state_remove_range [((0, 0), 5)] 0 0 1 = (.ok (some ()), []) ∧
    ∃ s2, merkle_contract_state_remove_range [] 0 0 1 = (.ok none, s2) ∧
      ∀ i, i < 1 → store_get s2 (0, 0 + i) = none := by
  refine ⟨rfl, ?_⟩
  exact C4_remove_idempotence [((0, 0), 5)] 0 0 1 (.ok (some ())) []
    (by simp [StoreWf]) (by omega) (by decide) rfl

/-- Claim C5 (confirmed): every successful range insert returns
`AllOverwritten` (`Ok(Some(()))`) exactly when each slot of the written span
previously held a value, and `SomeNew` (`Ok(None)`) otherwise. -/
theorem C5_all_overwritten (store : ContractsState) (cid start : Nat)
    (values : List Nat) (res : Option Unit) (s2 : ContractsState)
    (hwf : StoreWf store)
    (h : merkle_contract_state_insert_range store cid start values = (.ok res, s2)) :
    (res = some () ↔ ∀ i, i < values.length →
      (store_get store (cid, start + i)).isSome = true) ∧
    (res = none ↔ ¬ ∀ i, i < values.length →
      (store_get store (cid, start + i)).isSome = true) := by
  have hiff := (insert_range_ok hwf h).2.2.2.2
  refine ⟨hiff, ?_⟩
  cases res with
  | none =>
    refine iff_of_true rfl ?_
    intro hall
    exact Option.noConfusion (hiff.mpr hall)
  | some u =>
    cases u
    exact iff_of_false (by simp) (not_not_intro (hiff.mp rfl))

theorem C5_all_overwritten_witness :
    merkle_contract_state_insert_range [((0, 0), 9)] 0 0 [5]
      = (.ok (some ()), [((0, 0), 5)]) ∧
    ((some () : Option Unit) = some () ↔ ∀ i, i < [5].length →
      (store_get [((0, 0), 9)] (0, 0 + i)).isSome = true) := by
  refine ⟨rfl, ?_⟩
  exact (C5_all_overwritten [((0, 0), 9)] 0 0 [5] (some ()) [((0, 0), 5)]
    (by simp [StoreWf]) rfl).1

/-- Claim C6 (confirmed): `block_hash(h)` returns the all-zero value when
`h ≥ current_block_height` or `h = 0`; for every other `h` it returns the
store's recorded block id for `h`, failing with `NotFound` when the store
has no id for `h`. -/
theorem C6_block_hash (current : Nat) (get_block_id : Nat → Option Nat)
    (h : Nat) :
    (current ≤ h ∨ h = 0 → block_hash current get_block_id h = .ok 0) ∧
    (h < current → h ≠ 0 →
      (∀ id, get_block_id h = some id →
        block_hash current get_block_id h = .ok id) ∧
      (get_block_id h = none →
        block_hash current get_block_id h = .error (.notFound "BlockId"))) := by
  constructor
  · intro hc
    rw [block_hash, if_pos hc]
  · intro h1 h2
    have hc : ¬ (current ≤ h ∨ h = 0) := by omega
    constructor
    · intro id hid
      rw [block_hash, if_neg hc, hid]
    · intro hid
      rw [block_hash, if_neg hc, hid]

theorem C6_block_hash_witness :
    block_hash 2 (fun x => if x = 1 then some 9 else none) 2 = .ok 0 ∧
    block_hash 2 (fun x => if x = 1 then some 9 else none) 0 = .ok 0 ∧
    block_hash 2 (fun x => if x = 1 then some 9 else none) 1 = .ok 9 ∧
    block_hash 2 (fun _ => none) 1 = .error (.notFound "BlockId") := by
  refine ⟨?_, ?_, ?_, ?_⟩
  · exact (C6_block_hash 2 (fun x => if x = 1 then some 9 else none) 2).1
      (Or.inl (by omega))
  · exact (C6_block_hash 2 (fun x => if x = 1 then some 9 else none) 0).1
      (Or.inr rfl)
  · exact ((C6_block_hash 2 (fun x => if x = 1 then some 9 else none) 1).2
      (by omega) (by omega)).1 9 rfl
  · exact ((C6_block_hash 2 (fun _ => none) 1).2 (by omega) (by omega)).2 rfl

/-- Claim C7 (confirmed): `start()` fails with `AlreadyStarted` when a
running task handle is present, fails with `StartingWhileStopping` when no
handle is present but the parked slot is empty, and from the idle state it
takes the parked orchestrator, spawns it and stores the handle; `stop()`
when not running returns `None` and leaves the state unchanged, while
`stop()` when running takes the handle, sends `Stop`, and returns a task
whose completion re-parks the returned orchestrator. -/
theorem C7_lifecycle (s : ServiceState) :
    (∀ h, s.join = some h → Service.start s = .error .alreadyStarted) ∧
    (s.join = none → s.network_orchestrator = none →
      Service.start s = .error .startingWhileStopping) ∧
    (∀ pno, s.join = none → s.network_orchestrator = some pno →
      Service.start s = .ok { network_orchestrator := none, join := some pno }) ∧
    (s.join = none →
      Service.stop s = { task := none, sentStop := false, state := s }) ∧
    (∀ h, s.join = some h →
      (Service.stop s).task = some h ∧ (Service.stop s).sentStop = true ∧
      (Service.stop s).state.join = none ∧
      ∀ pno, (Service.reparkOnFinish (Service.stop s).state
        (some (some pno))).network_orchestrator = some pno) := by
  obtain ⟨orch, join⟩ := s
  refine ⟨?_, ?_, ?_, ?_, ?_⟩
  · rintro h rfl
    rfl
  · rintro rfl rfl
    rfl
  · rintro pno rfl rfl
    rfl
  · rintro rfl
    rfl
  · rintro h rfl
    exact ⟨rfl, rfl, rfl, fun pno => rfl⟩

theorem C7_lifecycle_witness :
    Service.start { network_orchestrator := some 1, join := none }
      = .ok { network_orchestrator := none, join := some 1 } ∧
    Service.start { network_orchestrator := none, join := some 2 }
      = .error .alreadyStarted ∧
    Service.start { network_orchestrator := none, join := none }
      = .error .startingWhileStopping ∧
    Service.stop { network_orchestrator := some 1, join := none }
      = { task := none, sentStop := false,
          state := { network_orchestrator := some 1, join := none } } ∧
    (Service.stop { network_orchestrator := none, join := some 2 }).task = some 2 ∧
    (Service.reparkOnFinish (Service.stop
        { network_orchestrator := none, join := some 2 }).state
      (some (some 3))).network_orchestrator = some 3 := by
  refine ⟨?_, ?_, ?_, ?_, ?_, ?_⟩
  · exact (C7_lifecycle { network_orchestrator := some 1, join := none }).2.2.1
      1 rfl rfl
  · exact (C7_lifecycle { network_orchestrator := none, join := some 2 }).1 2 rfl
  · exact (C7_lifecycle { network_orchestrator := none, join := none }).2.1 rfl rfl
  · exact (C7_lifecycle { network_orchestrator := some 1, join := none }).2.2.2.1 rfl
  · exact ((C7_lifecycle { network_orchestrator := none, join := some 2 }).2.2.2.2
      2 rfl).1
  · exact (((C7_lifecycle { network_orchestrator := none, join := some 2 }).2.2.2.2
      2 rfl).2.2.2) 3

/-- Claim C8 (confirmed): for every envelope built by `GossipData::new`, the
first `take_data` returns `some value`; every subsequent `take_data` returns
`none` (a drained envelope is a fixed point of `take_data`); and
`message_id` and `peer_id` return the construction-time bytes unchanged
before and after any `take_data`. -/
theorem C8_take_once (T : Type) (value : T) (pid : PeerId) (mid : List Nat) :
    ((GossipData.new value pid mid).take_data).1 = some value ∧
    (((GossipData.new value pid mid).take_data).2.take_data).1 = none ∧
    (∀ g : GossipData T, g.data = none →
      (g.take_data).1 = none ∧ (g.take_data).2 = g) ∧
    ((GossipData.new value pid mid).take_data).2.data = none ∧
    (GossipData.new value pid mid).messageIdBytes = mid ∧
    (GossipData.new value pid mid).peerIdBytes = pid.to_bytes ∧
    ((GossipData.new value pid mid).take_data).2.messageIdBytes = mid ∧
    ((GossipData.new value pid mid).take_data).2.peerIdBytes = pid.to_bytes := by
  refine ⟨rfl, rfl, ?_, rfl, rfl, rfl, rfl, rfl⟩
  rintro ⟨d, p, m⟩ hg
  simp only [GossipData.take_data] at hg ⊢
  subst hg
  exact ⟨rfl, rfl⟩

theorem C8_take_once_witness :
    (((GossipData.new 7 samplePeerId [3]).take_data).2.take_data).1 = none ∧
    (((GossipData.new 7 samplePeerId [3]).take_data).2.take_data).2
      = ((GossipData.new 7 samplePeerId [3]).take_data).2 := by
  exact (C8_take_once Nat 7 samplePeerId [3]).2.2.1
    ((GossipData.new 7 samplePeerId [3]).take_data).2 rfl

/-- Claim C9 (confirmed): zero-length range operations are total no-ops:
for every contract id and start key (including `2 ^ 256 - 1`), a zero-count
read returns `Ok([])`, an insert of an empty value list returns
`Ok(Some(()))` (`AllOverwritten`), a zero-count remove returns
`Ok(Some(()))` (`AllRemoved`), and in all three cases the store is
unchanged. -/
theorem C9_zero_length (store : ContractsState) (cid start : Nat)
    (hs : start < SIZE) :
    merkle_contract_state_range store cid start 0 = .ok [] ∧
    merkle_contract_state_insert_range store cid start []
      = (.ok (some ()), store) ∧
    merkle_contract_state_remove_range store cid start 0
      = (.ok (some ()), store) := by
  refine ⟨?_, ?_, ?_⟩
  · unfold merkle_contract_state_range
    cases iter_all store cid start with
    | nil => rfl
    | cons a rest => rfl
  · unfold merkle_contract_state_insert_range
    rw [if_pos (by simpa using hs)]
    rfl
  · rfl

theorem C9_zero_length_witness :
    merkle_contract_state_range [((0, 0), 5)] 0 (SIZE - 1) 0 = .ok [] ∧
    merkle_contract_state_insert_range [((0, 0), 5)] 0 (SIZE - 1) []
      = (.ok (some ()), [((0, 0), 5)]) ∧
    merkle_contract_state_remove_range [((0, 0), 5)] 0 (SIZE - 1) 0
      = (.ok (some ()), [((0, 0), 5)]) := by
  exact C9_zero_length [((0, 0), 5)] 0 (SIZE - 1) (by decide)

/-- Claim C10 (confirmed): handling of `GossipsubMessageReport` is partial:
when the envelope's peer id bytes do not parse as a `PeerId`, the handler
panics (the `unwrap`, modelled as `none`); under the precondition that the
bytes were produced by `PeerId` serialization — as `GossipData::peer_id`
produces — the bytes-to-`PeerId` conversion round-trips and the handler is
panic-free. -/
theorem C10_report_partiality :
    (∀ (bytes mid : List Nat) (a : GossipsubMessageAcceptance),
      PeerId.tryFrom bytes = none →
      handleGossipsubMessageReport bytes mid a = none) ∧
    (∀ (T : Type) (v : T) (p : PeerId) (midBytes mid : List Nat)
      (a : GossipsubMessageAcceptance),
      PeerId.tryFrom ((GossipData.new v p midBytes).peerIdBytes) = some p ∧
      handleGossipsubMessageReport ((GossipData.new v p midBytes).peerIdBytes)
        mid a = some (mid, p, translateAcceptance a)) := by
  constructor
  · intro bytes mid a h
    unfold handleGossipsubMessageReport
    rw [h]
  · intro T v p midBytes mid a
    have hrt : PeerId.tryFrom ((GossipData.new v p midBytes).peerIdBytes)
        = some p := by
      show PeerId.tryFrom p.multihash = some p
      unfold PeerId.tryFrom
      rw [dif_pos p.valid]
    refine ⟨hrt, ?_⟩
    unfold handleGossipsubMessageReport
    rw [hrt]

theorem C10_report_partiality_witness :
    PeerId.tryFrom [] = none ∧
    handleGossipsubMessageReport [] [] .accept = none := by
  refine ⟨rfl, ?_⟩
  exact C10_report_partiality.1 [] [] .accept rfl

end FuelCore
